import Mathlib

/-!
Shallow embedding of the Raytracing_Animal renderer.

The repository is a Rust program whose entry file `src/main.rs` defines the
ray-casting pipeline (`cast_ray`, `render`) over modules `color`, `sphere`,
`ray_intersect`, `camera` and `framebuffer`.  Only `main.rs` is present under
`src/`; the other modules are modelled from the specification (their doc
comments say so explicitly).  Rust `f32` scalars are modelled as real numbers;
the `f32::INFINITY` initial value of the z-buffer is modelled by `⊤ : EReal`.
-/

noncomputable section

open Real

/-- 3D vector (`nalgebra_glm::Vec3`); `f32` components modelled as reals. -/
structure Vec3 where
  x : ℝ
  y : ℝ
  z : ℝ

@[ext] theorem Vec3.ext' {a b : Vec3} (hx : a.x = b.x) (hy : a.y = b.y) (hz : a.z = b.z) :
    a = b := by
  cases a; cases b; simp_all

instance : Add Vec3 := ⟨fun a b => ⟨a.x + b.x, a.y + b.y, a.z + b.z⟩⟩

instance : Sub Vec3 := ⟨fun a b => ⟨a.x - b.x, a.y - b.y, a.z - b.z⟩⟩

instance : Neg Vec3 := ⟨fun a => ⟨-a.x, -a.y, -a.z⟩⟩

instance : SMul ℝ Vec3 := ⟨fun r a => ⟨r * a.x, r * a.y, r * a.z⟩⟩

@[simp] theorem Vec3.add_x (a b : Vec3) : (a + b).x = a.x + b.x := rfl

@[simp] theorem Vec3.add_y (a b : Vec3) : (a + b).y = a.y + b.y := rfl

@[simp] theorem Vec3.add_z (a b : Vec3) : (a + b).z = a.z + b.z := rfl

@[simp] theorem Vec3.sub_x (a b : Vec3) : (a - b).x = a.x - b.x := rfl

@[simp] theorem Vec3.sub_y (a b : Vec3) : (a - b).y = a.y - b.y := rfl

@[simp] theorem Vec3.sub_z (a b : Vec3) : (a - b).z = a.z - b.z := rfl

@[simp] theorem Vec3.neg_x (a : Vec3) : (-a).x = -a.x := rfl

@[simp] theorem Vec3.neg_y (a : Vec3) : (-a).y = -a.y := rfl

@[simp] theorem Vec3.neg_z (a : Vec3) : (-a).z = -a.z := rfl

@[simp] theorem Vec3.smul_x (r : ℝ) (a : Vec3) : (r • a).x = r * a.x := rfl

@[simp] theorem Vec3.smul_y (r : ℝ) (a : Vec3) : (r • a).y = r * a.y := rfl

@[simp] theorem Vec3.smul_z (r : ℝ) (a : Vec3) : (r • a).z = r * a.z := rfl

/-- Dot product of two vectors. -/
def Vec3.dot (a b : Vec3) : ℝ := a.x * b.x + a.y * b.y + a.z * b.z

/-- Cross product of two vectors. -/
def Vec3.cross (a b : Vec3) : Vec3 :=
  ⟨a.y * b.z - a.z * b.y, a.z * b.x - a.x * b.z, a.x * b.y - a.y * b.x⟩

/-- Euclidean magnitude (nalgebra `magnitude`). -/
def Vec3.mag (v : Vec3) : ℝ := Real.sqrt (v.dot v)

/-- nalgebra `normalize`: the vector divided by its magnitude. -/
def Vec3.normalize (v : Vec3) : Vec3 := (1 / v.mag) • v

/-- Modelled from the spec: `color.rs` is not under `src/`.  An RGB triple of
8-bit channels. -/
structure Color where
  r : ℕ
  g : ℕ
  b : ℕ
  deriving DecidableEq

/-- Modelled from the spec: `Color::new` packs the three channels. -/
def Color.new (r g b : ℕ) : Color := ⟨r, g, b⟩

/-- Modelled from the spec: packed 24-bit pixel `r<<16 | g<<8 | b`. -/
def Color.to_hex (c : Color) : ℕ := (c.r <<< 16) ||| (c.g <<< 8) ||| c.b

/-- Modelled from the spec: `ray_intersect.rs` is not under `src/`.  A material
holds one flat diffuse color. -/
structure Material where
  diffuse : Color
  deriving DecidableEq

/-- Modelled from the spec: the hit record returned by `ray_intersect`. -/
structure Intersect where
  is_intersecting : Bool
  distance : ℝ
  point : Vec3
  normal : Vec3
  material : Material

/-- Modelled from the spec: the empty (no-hit) sentinel.  The source stores
`f32::INFINITY` in `distance`; the field of the sentinel is never read by
`cast_ray` (the z-buffer is a separate variable, modelled in `EReal`), so the
real-valued model stores `0` there. -/
def Intersect.empty : Intersect :=
  { is_intersecting := false
    distance := 0
    point := ⟨0, 0, 0⟩
    normal := ⟨0, 0, 0⟩
    material := ⟨Color.new 0 0 0⟩ }

/-- A sphere: center, radius and material (`sphere.rs`, fields as in `main.rs`
scene construction). -/
structure Sphere where
  center : Vec3
  radius : ℝ
  material : Material

open Classical in
/-- Modelled from the spec: `sphere.rs` is not under `src/`.  Analytic
ray-sphere intersection: `L = center − origin`, `tca = L·dir`,
`d² = |L|² − tca²`; miss if `d² > radius²`; otherwise
`thc = sqrt(radius² − d²)`, `t0 = tca − thc`, `t1 = tca + thc`; if `t0` is
negative use `t1`; if the chosen `t` is still negative report no intersection;
on success the hit point is `origin + dir*t`, the normal is
`normalize(point − center)` and the sphere's material is copied. -/
def Sphere.ray_intersect (s : Sphere) (origin direction : Vec3) : Intersect :=
  let L : Vec3 := s.center - origin
  let tca : ℝ := L.dot direction
  let d2 : ℝ := L.dot L - tca * tca
  if d2 > s.radius * s.radius then Intersect.empty
  else
    let thc : ℝ := Real.sqrt (s.radius * s.radius - d2)
    let t0 : ℝ := tca - thc
    let t1 : ℝ := tca + thc
    let t : ℝ := if t0 < 0 then t1 else t0
    if t < 0 then Intersect.empty
    else
      let point : Vec3 := origin + t • direction
      let normal : Vec3 := (point - s.center).normalize
      { is_intersecting := true
        distance := t
        point := point
        normal := normal
        material := s.material }

open Classical in
/-- The z-buffer update performed for one hit record inside `cast_ray`'s loop
(`main.rs` lines 22-28): adopt `tmp` when it intersects and its distance is
strictly below the current z-buffer. -/
def step (acc : Intersect × EReal) (tmp : Intersect) : Intersect × EReal :=
  if tmp.is_intersecting = true ∧ (tmp.distance : EReal) < acc.2 then
    (tmp, (tmp.distance : EReal))
  else acc

/-- One iteration of `cast_ray`'s loop over the scene: intersect the object and
run the z-buffer update. -/
def castRayStep (ray_origin ray_direction : Vec3) (acc : Intersect × EReal)
    (object : Sphere) : Intersect × EReal :=
  step acc (object.ray_intersect ray_origin ray_direction)

/-- `cast_ray` (`main.rs` lines 18-37): fold the scene through the z-buffer
update starting from the empty sentinel and an infinite z-buffer; if nothing
was adopted return the green background `(120,180,130)`, otherwise the diffuse
color of the adopted hit's material. -/
def cast_ray (ray_origin ray_direction : Vec3) (objects : List Sphere) : Color :=
  let result := objects.foldl (castRayStep ray_origin ray_direction)
    (Intersect.empty, (⊤ : EReal))
  if result.1.is_intersecting = true then result.1.material.diffuse
  else Color.new 120 180 130

/-- The camera: eye position, look-at center and up hint (`camera.rs` state,
as constructed in `main.rs`). -/
structure Camera where
  eye : Vec3
  center : Vec3
  up : Vec3

/-- Modelled from the spec: `camera.rs` is not under `src/`.  `basis_change`
derives `forward = normalize(center − eye)`,
`right = normalize(cross(forward, up))`, `true_up = cross(right, forward)` and
maps a camera-space direction to world space as
`v.x*right + v.y*true_up + v.z*forward`. -/
def Camera.basis_change (cam : Camera) (v : Vec3) : Vec3 :=
  let forward : Vec3 := (cam.center - cam.eye).normalize
  let right : Vec3 := (forward.cross cam.up).normalize
  let true_up : Vec3 := right.cross forward
  v.x • right + v.y • true_up + v.z • forward

open Classical in
/-- Two-argument arctangent, used to recover the current yaw/pitch angles of
the eye around the center in the spherical-orbit model. -/
def atan2 (y x : ℝ) : ℝ :=
  if 0 < x then Real.arctan (y / x)
  else if x < 0 then Real.arctan (y / x) + π
  else if 0 < y then π / 2
  else if y < 0 then -(π / 2)
  else 0

/-- Modelled from the spec: `camera.rs` is not under `src/`.  `orbit` performs
the spherical orbit the spec describes: the current yaw and pitch of the eye
around the center are recovered, the deltas are added, and the eye is placed
back on the sphere of radius `|eye − center|` around the center.  The basis is
derived on demand by `basis_change`, so recomputing it is implicit. -/
def Camera.orbit (cam : Camera) (yaw_delta pitch_delta : ℝ) : Camera :=
  let rv : Vec3 := cam.eye - cam.center
  let radius : ℝ := rv.mag
  let yaw : ℝ := atan2 rv.z rv.x
  let pitch : ℝ := atan2 rv.y (Real.sqrt (rv.x * rv.x + rv.z * rv.z))
  let new_yaw : ℝ := yaw + yaw_delta
  let new_pitch : ℝ := pitch + pitch_delta
  { cam with
    eye := cam.center +
      radius • Vec3.mk (Real.cos new_pitch * Real.cos new_yaw)
        (Real.sin new_pitch)
        (Real.cos new_pitch * Real.sin new_yaw) }

/-- A finite sequence of `orbit` calls applied in order. -/
def Camera.orbitSeq (cam : Camera) (deltas : List (ℝ × ℝ)) : Camera :=
  deltas.foldl (fun c p => c.orbit p.1 p.2) cam

/-- Modelled from the spec: `framebuffer.rs` is not under `src/`.  A 2D pixel
buffer (row-major, packed-integer pixels) with a current draw color. -/
structure Framebuffer where
  width : ℕ
  height : ℕ
  buffer : List ℕ
  current_color : ℕ

/-- Modelled from the spec: `Framebuffer::new` allocates `width*height`
pixels, initialized to a default color. -/
def Framebuffer.new (width height : ℕ) : Framebuffer :=
  ⟨width, height, List.replicate (width * height) 0, 0⟩

/-- Modelled from the spec: set the color used by subsequent `point` calls. -/
def Framebuffer.set_current_color (fb : Framebuffer) (c : ℕ) : Framebuffer :=
  { fb with current_color := c }

/-- Modelled from the spec: write the current color at row-major index
`y*width + x` (`List.set` is a no-op out of bounds; the render loop only
produces in-bounds indices). -/
def Framebuffer.point (fb : Framebuffer) (x y : ℕ) : Framebuffer :=
  { fb with buffer := fb.buffer.set (y * fb.width + x) fb.current_color }

/-- The per-pixel body of `render` (`main.rs` lines 48-57): map the pixel to
screen coordinates, apply aspect-ratio and fov scaling (fov = π/3), form the
camera-space direction `(screen_x, screen_y, -1)`, normalize it, rotate it by
the camera basis and cast the ray from the camera's eye. -/
def pixel_color (w h : ℕ) (objects : List Sphere) (camera : Camera)
    (x y : ℕ) : Color :=
  let width : ℝ := (w : ℝ)
  let height : ℝ := (h : ℝ)
  let aspect_ratio : ℝ := width / height
  let fov : ℝ := π / 3
  let perspective_scale : ℝ := Real.tan (fov * 0.5)
  let screen_x : ℝ := (2 * (x : ℝ)) / width - 1
  let screen_y : ℝ := -(2 * (y : ℝ)) / height + 1
  let screen_x : ℝ := screen_x * aspect_ratio * perspective_scale
  let screen_y : ℝ := screen_y * perspective_scale
  let ray_direction : Vec3 := (Vec3.mk screen_x screen_y (-1)).normalize
  let rotated_direction : Vec3 := camera.basis_change ray_direction
  cast_ray camera.eye rotated_direction objects

/-- `render` (`main.rs` lines 39-63): for every row `y` and column `x` of the
framebuffer grid, compute the pixel color, set it as the current color and
plot the point. -/
def render (fb : Framebuffer) (objects : List Sphere) (camera : Camera) :
    Framebuffer :=
  (List.range fb.height).foldl
    (fun fbY y =>
      (List.range fb.width).foldl
        (fun fbX x =>
          (fbX.set_current_color
            (pixel_color fb.width fb.height objects camera x y).to_hex).point x y)
        fbY)
    fb

/-- The sequence of (index, packed color) writes `render` performs, in
program order. -/
def write_list (w h : ℕ) (objects : List Sphere) (camera : Camera) :
    List (ℕ × ℕ) :=
  (List.range h).flatMap fun y =>
    (List.range w).map fun x =>
      (y * w + x, (pixel_color w h objects camera x y).to_hex)

/-- Apply a sequence of (index, value) writes to a pixel buffer in order. -/
def apply_writes (b : List ℕ) (ws : List (ℕ × ℕ)) : List ℕ :=
  ws.foldl (fun acc p => acc.set p.1 p.2) b

/-- A point lies on the surface of a sphere (squared form, avoiding `sqrt`). -/
def on_sphere (s : Sphere) (p : Vec3) : Prop :=
  (p - s.center).dot (p - s.center) = s.radius * s.radius

/-- If no element of the list can beat the current z-buffer, the fold leaves
the accumulator unchanged. -/
theorem foldl_step_eq_self (l : List Intersect) (b : Intersect) (z : EReal)
    (h : ∀ u ∈ l, u.is_intersecting = true → ¬((u.distance : EReal) < z)) :
    l.foldl step (b, z) = (b, z) := by
  induction l with
  | nil => rfl
  | cons u l ih =>
    have hu : step (b, z) u = (b, z) := by
      unfold step
      rw [if_neg]
      rintro ⟨h1, h2⟩
      exact h u (List.mem_cons_self u l) h1 h2
    simp only [List.foldl_cons, hu]
    exact ih fun v hv => h v (List.mem_cons_of_mem u hv)

/-- The fold either returns its initial accumulator unchanged, or an adopted
hit record from the list, intersecting, with the z-buffer equal to its
distance. -/
theorem foldl_step_mem (l : List Intersect) (b : Intersect) (z : EReal) :
    l.foldl step (b, z) = (b, z) ∨
      ((l.foldl step (b, z)).1 ∈ l ∧
        (l.foldl step (b, z)).1.is_intersecting = true ∧
        (l.foldl step (b, z)).2 = ((l.foldl step (b, z)).1.distance : EReal)) := by
  induction l generalizing b z with
  | nil => exact Or.inl rfl
  | cons u l ih =>
    simp only [List.foldl_cons]
    by_cases hc : u.is_intersecting = true ∧ (u.distance : EReal) < z
    · have hstep : step (b, z) u = (u, (u.distance : EReal)) := by
        unfold step; rw [if_pos hc]
      rw [hstep]
      rcases ih u (u.distance : EReal) with h | h
      · rw [h]
        exact Or.inr ⟨List.mem_cons_self u l, hc.1, rfl⟩
      · exact Or.inr ⟨List.mem_cons_of_mem u h.1, h.2.1, h.2.2⟩
    · have hstep : step (b, z) u = (b, z) := by
        unfold step; rw [if_neg hc]
      rw [hstep]
      rcases ih b z with h | h
      · exact Or.inl h
      · exact Or.inr ⟨List.mem_cons_of_mem u h.1, h.2.1, h.2.2⟩

/-- Once the z-buffer is finite (or some element of the list intersects), the
final z-buffer is finite. -/
theorem foldl_step_z_ne_top (l : List Intersect) (b : Intersect) (z : EReal)
    (h : z ≠ ⊤ ∨ ∃ u ∈ l, u.is_intersecting = true) :
    (l.foldl step (b, z)).2 ≠ ⊤ := by
  induction l generalizing b z with
  | nil =>
    rcases h with h | ⟨u, hu, _⟩
    · exact h
    · exact absurd hu (List.not_mem_nil u)
  | cons u l ih =>
    simp only [List.foldl_cons]
    rcases h with h | ⟨v, hv, hvi⟩
    · unfold step
      by_cases hc : u.is_intersecting = true ∧ ((u.distance : EReal) < z)
      · rw [if_pos hc]; exact ih _ _ (Or.inl (EReal.coe_ne_top _))
      · rw [if_neg hc]; exact ih _ _ (Or.inl h)
    · rcases List.mem_cons.mp hv with rfl | hv'
      · have hc : v.is_intersecting = true ∧ ((v.distance : EReal) < z) ∨
            step (b, z) v = (b, z) ∧ z ≠ ⊤ := by
          by_cases hz : (v.distance : EReal) < z
          · exact Or.inl ⟨hvi, hz⟩
          · refine Or.inr ⟨by unfold step; rw [if_neg (fun hh => hz hh.2)], ?_⟩
            intro hzt
            exact hz (hzt ▸ EReal.coe_lt_top v.distance)
        rcases hc with hc | ⟨hs, hz⟩
        · have : step (b, z) v = (v, (v.distance : EReal)) := by
            unfold step; rw [if_pos hc]
          rw [this]; exact ih _ _ (Or.inl (EReal.coe_ne_top _))
        · rw [hs]; exact ih _ _ (Or.inl hz)
      · by_cases hc : u.is_intersecting = true ∧ ((u.distance : EReal) < z)
        · have : step (b, z) u = (u, (u.distance : EReal)) := by
            unfold step; rw [if_pos hc]
          rw [this]; exact ih _ _ (Or.inl (EReal.coe_ne_top _))
        · have : step (b, z) u = (b, z) := by unfold step; rw [if_neg hc]
          rw [this]; exact ih _ _ (Or.inr ⟨v, hv', hvi⟩)

/-- The first element whose distance is strictly below every earlier
intersecting distance and at most every later intersecting distance is the
adopted hit of the whole fold. -/
theorem foldl_step_first_min (l₁ l₂ : List Intersect) (t : Intersect)
    (ht : t.is_intersecting = true)
    (h₁ : ∀ u ∈ l₁, u.is_intersecting = true → t.distance < u.distance)
    (h₂ : ∀ u ∈ l₂, u.is_intersecting = true → t.distance ≤ u.distance) :
    (l₁ ++ t :: l₂).foldl step (Intersect.empty, (⊤ : EReal)) =
      (t, (t.distance : EReal)) := by
  rw [List.foldl_append]
  have hlt : (t.distance : EReal) < (l₁.foldl step (Intersect.empty, (⊤ : EReal))).2 := by
    rcases foldl_step_mem l₁ Intersect.empty ⊤ with h | ⟨hmem, hint, hz⟩
    · rw [h]; exact EReal.coe_lt_top t.distance
    · rw [hz]
      exact_mod_cast h₁ _ hmem hint
  have hstep : step (l₁.foldl step (Intersect.empty, (⊤ : EReal))) t =
      (t, (t.distance : EReal)) := by
    unfold step; rw [if_pos ⟨ht, hlt⟩]
  simp only [List.foldl_cons, hstep]
  exact foldl_step_eq_self l₂ t (t.distance : EReal) fun u hu hui => by
    have hle := h₂ u hu hui
    exact fun hlt' => (not_lt.mpr hle) (by exact_mod_cast hlt')

/-- Splitting a list at the first occurrence of a member. -/
theorem mem_split_first {α : Type} {a : α} {l : List α} (h : a ∈ l) :
    ∃ l₁ l₂, l = l₁ ++ a :: l₂ ∧ a ∉ l₁ := by
  induction l with
  | nil => exact absurd h (List.not_mem_nil a)
  | cons u l ih =>
    by_cases hu : a = u
    · exact ⟨[], l, by simp [hu], List.not_mem_nil a⟩
    · rcases ih (List.mem_cons.mp h |>.resolve_left hu) with ⟨l₁, l₂, hl, hnot⟩
      exact ⟨u :: l₁, l₂, by rw [hl]; rfl,
        fun hc => (List.mem_cons.mp hc).elim hu hnot⟩

/-- The loop of `cast_ray` over spheres is the z-buffer fold over the list of
their hit records. -/
theorem foldl_castRayStep_eq (o d : Vec3) (l : List Sphere)
    (init : Intersect × EReal) :
    l.foldl (castRayStep o d) init =
      (l.map fun s => s.ray_intersect o d).foldl step init :=
  (List.foldl_map (fun s : Sphere => s.ray_intersect o d) step l init).symm

/-- If one object's hit is intersecting and strictly closer than every other
intersecting hit, the fold adopts it and `cast_ray` returns its material's
diffuse color. -/
theorem cast_ray_min_helper (o d : Vec3) (l : List Sphere) (s : Sphere)
    (hmem : s ∈ l)
    (hint : (s.ray_intersect o d).is_intersecting = true)
    (hmin : ∀ u ∈ l, u ≠ s → (u.ray_intersect o d).is_intersecting = true →
      (s.ray_intersect o d).distance < (u.ray_intersect o d).distance) :
    cast_ray o d l = (s.ray_intersect o d).material.diffuse := by
  obtain ⟨l₁, l₂, rfl, hnot⟩ := mem_split_first hmem
  have hfold : (l₁ ++ s :: l₂).foldl (castRayStep o d) (Intersect.empty, (⊤ : EReal)) =
      (s.ray_intersect o d, ((s.ray_intersect o d).distance : EReal)) := by
    rw [foldl_castRayStep_eq]
    have hmap : (l₁ ++ s :: l₂).map (fun u => u.ray_intersect o d) =
        (l₁.map fun u => u.ray_intersect o d) ++
          s.ray_intersect o d :: (l₂.map fun u => u.ray_intersect o d) := by
      simp
    rw [hmap]
    apply foldl_step_first_min _ _ _ hint
    · intro u hu hui
      rcases List.mem_map.mp hu with ⟨v, hv, rfl⟩
      exact hmin v (List.mem_append.mpr (Or.inl hv))
        (fun hc => hnot (hc ▸ hv)) hui
    · intro u hu hui
      rcases List.mem_map.mp hu with ⟨v, hv, rfl⟩
      by_cases hvs : v = s
      · rw [hvs]
      · exact le_of_lt (hmin v
          (List.mem_append.mpr (Or.inr (List.mem_cons_of_mem s hv))) hvs hui)
  unfold cast_ray
  rw [hfold]
  simp [hint]

/-- C1: for every scene list and ray, when at least two objects report an
intersection and the intersection distances of distinct objects are strictly
distinct, `cast_ray` returns the material color of the object with the
smallest reported distance, on the list and on any permutation of it. -/
theorem cast_ray_nearest_object_wins (o d : Vec3) (l l' : List Sphere)
    (hperm : l.Perm l') (s : Sphere) (hmem : s ∈ l)
    (hint : (s.ray_intersect o d).is_intersecting = true)
    (htwo : ∃ u ∈ l, u ≠ s ∧ (u.ray_intersect o d).is_intersecting = true)
    (hmin : ∀ u ∈ l, u ≠ s → (u.ray_intersect o d).is_intersecting = true →
      (s.ray_intersect o d).distance < (u.ray_intersect o d).distance) :
    cast_ray o d l = (s.ray_intersect o d).material.diffuse ∧
      cast_ray o d l' = (s.ray_intersect o d).material.diffuse := by
  refine ⟨cast_ray_min_helper o d l s hmem hint hmin, ?_⟩
  exact cast_ray_min_helper o d l' s (hperm.mem_iff.mp hmem) hint
    fun u hu => hmin u (hperm.mem_iff.mpr hu)

/-- C5: when an earlier object and a later object report intersections at
exactly equal, minimal distances, the fold inside `cast_ray` keeps the hit
record of the earlier object and `cast_ray` returns its material color. -/
theorem cast_ray_tie_first_wins (o d : Vec3) (l₁ l₂ : List Sphere)
    (s t : Sphere) (htmem : t ∈ l₂)
    (hs : (s.ray_intersect o d).is_intersecting = true)
    (hti : (t.ray_intersect o d).is_intersecting = true)
    (heq : (s.ray_intersect o d).distance = (t.ray_intersect o d).distance)
    (hbefore : ∀ u ∈ l₁, (u.ray_intersect o d).is_intersecting = true →
      (s.ray_intersect o d).distance < (u.ray_intersect o d).distance)
    (hafter : ∀ u ∈ l₂, (u.ray_intersect o d).is_intersecting = true →
      (s.ray_intersect o d).distance ≤ (u.ray_intersect o d).distance) :
    ((l₁ ++ s :: l₂).foldl (castRayStep o d)
        (Intersect.empty, (⊤ : EReal))).1 = s.ray_intersect o d ∧
      cast_ray o d (l₁ ++ s :: l₂) =
        (s.ray_intersect o d).material.diffuse := by
  have hfold : (l₁ ++ s :: l₂).foldl (castRayStep o d) (Intersect.empty, (⊤ : EReal)) =
      (s.ray_intersect o d, ((s.ray_intersect o d).distance : EReal)) := by
    rw [foldl_castRayStep_eq]
    have hmap : (l₁ ++ s :: l₂).map (fun u => u.ray_intersect o d) =
        (l₁.map fun u => u.ray_intersect o d) ++
          s.ray_intersect o d :: (l₂.map fun u => u.ray_intersect o d) := by
      simp
    rw [hmap]
    apply foldl_step_first_min _ _ _ hs
    · intro u hu hui
      rcases List.mem_map.mp hu with ⟨v, hv, rfl⟩
      exact hbefore v hv hui
    · intro u hu hui
      rcases List.mem_map.mp hu with ⟨v, hv, rfl⟩
      exact hafter v hv hui
  refine ⟨by rw [hfold], ?_⟩
  unfold cast_ray
  rw [hfold]
  simp [hs]

/-- Amended C3: `cast_ray` returns the background color `(120,180,130)` when
no object intersects; when some object intersects it returns the diffuse color
of an intersecting (the winning) object's material, with no lighting applied.
(The original "if and only if" fails when the winning material's diffuse is
itself `(120,180,130)`.) -/
theorem cast_ray_color_resolution (o d : Vec3) (l : List Sphere) :
    ((∀ u ∈ l, (u.ray_intersect o d).is_intersecting = false) →
      cast_ray o d l = Color.new 120 180 130) ∧
    ((∃ u ∈ l, (u.ray_intersect o d).is_intersecting = true) →
      ∃ u ∈ l, (u.ray_intersect o d).is_intersecting = true ∧
        cast_ray o d l = (u.ray_intersect o d).material.diffuse) := by
  constructor
  · intro hall
    have hfold : l.foldl (castRayStep o d) (Intersect.empty, (⊤ : EReal)) =
        (Intersect.empty, (⊤ : EReal)) := by
      rw [foldl_castRayStep_eq]
      apply foldl_step_eq_self
      intro u hu hui
      rcases List.mem_map.mp hu with ⟨v, hv, rfl⟩
      rw [hall v hv] at hui
      exact absurd hui (by simp)
    unfold cast_ray
    rw [hfold]
    simp [Intersect.empty]
  · rintro ⟨u, hu, hui⟩
    have hz : ((l.map fun v => v.ray_intersect o d).foldl step
        (Intersect.empty, (⊤ : EReal))).2 ≠ ⊤ := by
      apply foldl_step_z_ne_top
      exact Or.inr ⟨u.ray_intersect o d, List.mem_map_of_mem _ hu, hui⟩
    rcases foldl_step_mem (l.map fun v => v.ray_intersect o d)
        Intersect.empty ⊤ with h | ⟨hmem, hi, _⟩
    · rw [h] at hz
      exact absurd rfl hz
    · rcases List.mem_map.mp hmem with ⟨v, hv, hveq⟩
      refine ⟨v, hv, ?_, ?_⟩
      · rw [hveq]; exact hi
      · unfold cast_ray
        rw [foldl_castRayStep_eq, hveq]
        simp [hi]

/-- C10: `cast_ray` on an empty scene returns the background color: the loop
body never runs, the sentinel stays non-intersecting, and the background
branch is taken. -/
theorem cast_ray_empty_scene (o d : Vec3) :
    cast_ray o d [] = Color.new 120 180 130 := by
  unfold cast_ray
  simp [Intersect.empty]

/-- For a unit direction, the squared distance from the point at parameter `t`
to the sphere's center expands to the intersection quadratic. -/
theorem ray_quadratic (s : Sphere) (o d : Vec3) (hd : d.dot d = 1) (t : ℝ) :
    ((o + t • d) - s.center).dot ((o + t • d) - s.center) =
      t * t - 2 * ((s.center - o).dot d) * t +
        (s.center - o).dot (s.center - o) := by
  simp only [Vec3.dot, Vec3.add_x, Vec3.add_y, Vec3.add_z, Vec3.sub_x,
    Vec3.sub_y, Vec3.sub_z, Vec3.smul_x, Vec3.smul_y, Vec3.smul_z] at hd ⊢
  linear_combination (t * t) * hd

/-- Amended C2: for a unit direction, `ray_intersect` reports the nearest
nonnegative intersection distance (distances `< 0` are excluded; distance `0`
occurs when the origin lies on the sphere); on success the point is
`origin + direction*t`, the normal is `normalize(point − center)` and the
material is the sphere's; on failure there is no intersection at any
nonnegative distance. -/
theorem ray_intersect_nearest_nonneg (s : Sphere) (o d : Vec3)
    (hd : d.dot d = 1) :
    ((s.ray_intersect o d).is_intersecting = true →
      0 ≤ (s.ray_intersect o d).distance ∧
      (s.ray_intersect o d).point = o + (s.ray_intersect o d).distance • d ∧
      on_sphere s (s.ray_intersect o d).point ∧
      (s.ray_intersect o d).normal =
        ((s.ray_intersect o d).point - s.center).normalize ∧
      (s.ray_intersect o d).material = s.material ∧
      (∀ t : ℝ, 0 ≤ t → on_sphere s (o + t • d) →
        (s.ray_intersect o d).distance ≤ t)) ∧
    ((s.ray_intersect o d).is_intersecting = false →
      ∀ t : ℝ, 0 ≤ t → ¬ on_sphere s (o + t • d)) := by
  have hquad : ∀ t : ℝ, on_sphere s (o + t • d) ↔
      t * t - 2 * ((s.center - o).dot d) * t +
        (s.center - o).dot (s.center - o) = s.radius * s.radius := by
    intro t
    unfold on_sphere
    rw [ray_quadratic s o d hd t]
  set tca : ℝ := (s.center - o).dot d with htca
  set LL : ℝ := (s.center - o).dot (s.center - o) with hLL
  set d2 : ℝ := LL - tca * tca with hd2
  by_cases hmiss : d2 > s.radius * s.radius
  · have hres : s.ray_intersect o d = Intersect.empty := by
      simp only [Sphere.ray_intersect]
      rw [← htca, ← hLL, ← hd2, if_pos hmiss]
    rw [hres]
    constructor
    · intro h
      exact absurd h (by simp [Intersect.empty])
    · intro _ t _ hsph
      have := (hquad t).mp hsph
      nlinarith [this, hmiss, sq_nonneg (t - tca)]
  · have hle : d2 ≤ s.radius * s.radius := not_lt.mp hmiss
    set thc : ℝ := Real.sqrt (s.radius * s.radius - d2) with hthc
    have hthc_nonneg : 0 ≤ thc := Real.sqrt_nonneg _
    have hthc_sq : thc * thc = s.radius * s.radius - d2 :=
      Real.mul_self_sqrt (by linarith)
    have hroot : ∀ t : ℝ, on_sphere s (o + t • d) ↔
        t = tca - thc ∨ t = tca + thc := by
      intro t
      rw [hquad t]
      constructor
      · intro h
        have hfac : (t - (tca - thc)) * (t - (tca + thc)) = 0 := by
          nlinarith [h, hthc_sq]
        rcases mul_eq_zero.mp hfac with h0 | h0
        · exact Or.inl (by linarith)
        · exact Or.inr (by linarith)
      · rintro (rfl | rfl) <;> nlinarith [hthc_sq]
    by_cases ht0 : tca - thc < 0
    · by_cases ht1 : tca + thc < 0
      · have hres : s.ray_intersect o d = Intersect.empty := by
          simp only [Sphere.ray_intersect]
          rw [← htca, ← hLL, ← hd2, if_neg hmiss, ← hthc]
          rw [if_pos ht0, if_pos ht1]
        rw [hres]
        constructor
        · intro h
          exact absurd h (by simp [Intersect.empty])
        · intro _ t ht hsph
          rcases (hroot t).mp hsph with rfl | rfl
          · exact absurd ht (not_le.mpr ht0)
          · exact absurd ht (not_le.mpr ht1)
      · have hres : s.ray_intersect o d =
            { is_intersecting := true
              distance := tca + thc
              point := o + (tca + thc) • d
              normal := ((o + (tca + thc) • d) - s.center).normalize
              material := s.material } := by
          simp only [Sphere.ray_intersect]
          rw [← htca, ← hLL, ← hd2, if_neg hmiss, ← hthc]
          rw [if_pos ht0, if_neg ht1]
        rw [hres]
        dsimp only
        constructor
        · intro _
          refine ⟨not_lt.mp ht1, rfl, ?_, rfl, rfl, ?_⟩
          · exact (hroot (tca + thc)).mpr (Or.inr rfl)
          · intro t ht hsph
            rcases (hroot t).mp hsph with rfl | rfl
            · exact absurd ht (not_le.mpr ht0)
            · exact le_refl _
        · intro h
          exact absurd h (by simp)
    · have hres : s.ray_intersect o d =
          { is_intersecting := true
            distance := tca - thc
            point := o + (tca - thc) • d
            normal := ((o + (tca - thc) • d) - s.center).normalize
            material := s.material } := by
        simp only [Sphere.ray_intersect]
        rw [← htca, ← hLL, ← hd2, if_neg hmiss, ← hthc]
        rw [if_neg ht0, if_neg ht0]
      rw [hres]
      dsimp only
      constructor
      · intro _
        refine ⟨not_lt.mp ht0, rfl, ?_, rfl, rfl, ?_⟩
        · exact (hroot (tca - thc)).mpr (Or.inl rfl)
        · intro t ht hsph
          rcases (hroot t).mp hsph with rfl | rfl
          · exact le_refl _
          · linarith
      · intro h
        exact absurd h (by simp)

/-- The fur material of `main.rs`. -/
def matFur : Material := ⟨Color.new 139 69 19⟩

/-- A red test material. -/
def matRed : Material := ⟨Color.new 255 0 0⟩

/-- A material whose diffuse coincides with the background color. -/
def matBg : Material := ⟨Color.new 120 180 130⟩

/-- The origin, the eye position of the `main.rs` camera. -/
def o0 : Vec3 := ⟨0, 0, 0⟩

/-- The unit direction along negative z. -/
def dz : Vec3 := ⟨0, 0, -1⟩

/-- A sphere 5 units down the view axis (the bear head of `main.rs`). -/
def sphereNear : Sphere := ⟨⟨0, 0, -5⟩, 1, matFur⟩

/-- A sphere 10 units down the view axis. -/
def sphereFar : Sphere := ⟨⟨0, 0, -10⟩, 1, matRed⟩

/-- A sphere at the same position as `sphereNear` but red. -/
def sphereTie : Sphere := ⟨⟨0, 0, -5⟩, 1, matRed⟩

/-- A sphere whose surface passes through the origin. -/
def sphereTouch : Sphere := ⟨⟨0, 0, -1⟩, 1, matFur⟩

/-- A sphere whose material diffuse equals the background color. -/
def sphereBg : Sphere := ⟨⟨0, 0, -5⟩, 1, matBg⟩

/-- Evaluation: the near sphere is hit at distance 4. -/
theorem sphereNear_eval : sphereNear.ray_intersect o0 dz =
    ⟨true, 4, ⟨0, 0, -4⟩, ⟨0, 0, 1⟩, matFur⟩ := by
  norm_num [Sphere.ray_intersect, sphereNear, o0, dz, Vec3.dot,
    Vec3.normalize, Vec3.mag, matFur]
  constructor <;> (ext <;> norm_num)

/-- Evaluation: the far sphere is hit at distance 9. -/
theorem sphereFar_eval : sphereFar.ray_intersect o0 dz =
    ⟨true, 9, ⟨0, 0, -9⟩, ⟨0, 0, 1⟩, matRed⟩ := by
  norm_num [Sphere.ray_intersect, sphereFar, o0, dz, Vec3.dot,
    Vec3.normalize, Vec3.mag, matRed]
  constructor <;> (ext <;> norm_num)

/-- Evaluation: the tie sphere is hit at distance 4. -/
theorem sphereTie_eval : sphereTie.ray_intersect o0 dz =
    ⟨true, 4, ⟨0, 0, -4⟩, ⟨0, 0, 1⟩, matRed⟩ := by
  norm_num [Sphere.ray_intersect, sphereTie, o0, dz, Vec3.dot,
    Vec3.normalize, Vec3.mag, matRed]
  constructor <;> (ext <;> norm_num)

/-- Evaluation: the touching sphere is hit at distance 0. -/
theorem sphereTouch_eval : sphereTouch.ray_intersect o0 dz =
    ⟨true, 0, ⟨0, 0, 0⟩, ⟨0, 0, 1⟩, matFur⟩ := by
  norm_num [Sphere.ray_intersect, sphereTouch, o0, dz, Vec3.dot,
    Vec3.normalize, Vec3.mag, matFur]
  constructor <;> (ext <;> norm_num)

/-- Evaluation: the background-colored sphere is hit at distance 4. -/
theorem sphereBg_eval : sphereBg.ray_intersect o0 dz =
    ⟨true, 4, ⟨0, 0, -4⟩, ⟨0, 0, 1⟩, matBg⟩ := by
  norm_num [Sphere.ray_intersect, sphereBg, o0, dz, Vec3.dot,
    Vec3.normalize, Vec3.mag, matBg]
  constructor <;> (ext <;> norm_num)

/-- Witness for C1: with the farther sphere listed first, and on the swapped
list, `cast_ray` returns the nearer sphere's fur color. -/
theorem cast_ray_nearest_object_wins_witness :
    cast_ray o0 dz [sphereFar, sphereNear] = matFur.diffuse ∧
      cast_ray o0 dz [sphereNear, sphereFar] = matFur.diffuse := by
  have h := cast_ray_nearest_object_wins o0 dz [sphereFar, sphereNear]
    [sphereNear, sphereFar] (List.Perm.swap sphereNear sphereFar [])
    sphereNear (by simp) (by rw [sphereNear_eval])
    ⟨sphereFar, by simp,
      by norm_num [sphereFar, sphereNear, matRed, matFur, Color.new],
      by rw [sphereFar_eval]⟩
    (by
      intro u hu hne hint
      rcases List.mem_cons.mp hu with rfl | hu'
      · rw [sphereNear_eval, sphereFar_eval]
        norm_num
      · rcases List.mem_cons.mp hu' with rfl | hu''
        · exact absurd rfl hne
        · exact absurd hu'' (List.not_mem_nil u))
  rw [sphereNear_eval] at h
  exact h

/-- Witness for C5: two coincident spheres tie at distance 4; the earlier one
(fur) is kept. -/
theorem cast_ray_tie_first_wins_witness :
    (([] ++ sphereNear :: [sphereTie]).foldl (castRayStep o0 dz)
        (Intersect.empty, (⊤ : EReal))).1 = sphereNear.ray_intersect o0 dz ∧
      cast_ray o0 dz ([] ++ sphereNear :: [sphereTie]) =
        (sphereNear.ray_intersect o0 dz).material.diffuse := by
  exact cast_ray_tie_first_wins o0 dz [] [sphereTie] sphereNear sphereTie
    (by simp) (by rw [sphereNear_eval]) (by rw [sphereTie_eval])
    (by rw [sphereNear_eval, sphereTie_eval])
    (by intro u hu; exact absurd hu (List.not_mem_nil u))
    (by
      intro u hu hint
      rcases List.mem_cons.mp hu with rfl | hu'
      · rw [sphereNear_eval, sphereTie_eval]
      · exact absurd hu' (List.not_mem_nil u))

/-- Counterexample for C3 as stated: the ray hits the background-colored
sphere (the hit is adopted by the fold), yet `cast_ray` still returns exactly
`(120,180,130)`, so "returns the background color only if no hit was adopted"
is false. -/
theorem cast_ray_background_collision_cx :
    cast_ray o0 dz [sphereBg] = Color.new 120 180 130 ∧
      (([sphereBg].foldl (castRayStep o0 dz)
        (Intersect.empty, (⊤ : EReal))).1.is_intersecting = true) := by
  have hfold : [sphereBg].foldl (castRayStep o0 dz)
      (Intersect.empty, (⊤ : EReal)) =
      (sphereBg.ray_intersect o0 dz,
        ((sphereBg.ray_intersect o0 dz).distance : EReal)) := by
    simp only [List.foldl_cons, List.foldl_nil, castRayStep]
    unfold step
    rw [if_pos ⟨by rw [sphereBg_eval], EReal.coe_lt_top _⟩]
  constructor
  · unfold cast_ray
    rw [hfold, sphereBg_eval]
    norm_num [matBg]
  · rw [hfold, sphereBg_eval]

/-- Witness for amended C3: the empty scene yields the background color, and a
scene with one intersecting sphere yields that sphere's diffuse color. -/
theorem cast_ray_color_resolution_witness :
    cast_ray o0 dz [] = Color.new 120 180 130 ∧
      ∃ u ∈ [sphereNear], (u.ray_intersect o0 dz).is_intersecting = true ∧
        cast_ray o0 dz [sphereNear] = (u.ray_intersect o0 dz).material.diffuse := by
  refine ⟨(cast_ray_color_resolution o0 dz []).1 (by simp), ?_⟩
  exact (cast_ray_color_resolution o0 dz [sphereNear]).2
    ⟨sphereNear, by simp, by rw [sphereNear_eval]⟩

/-- Counterexample for C2 as stated: a ray whose origin lies on the sphere is
reported as an intersection at distance 0, although the claim says distances
`≤ 0` are excluded. -/
theorem ray_intersect_zero_distance_cx :
    (sphereTouch.ray_intersect o0 dz).is_intersecting = true ∧
      (sphereTouch.ray_intersect o0 dz).distance ≤ 0 := by
  rw [sphereTouch_eval]
  exact ⟨rfl, le_refl 0⟩

/-- Witness for amended C2: the head sphere with the axis ray satisfies the
unit-direction hypothesis and the nearest-nonnegative-hit conclusion. -/
theorem ray_intersect_nearest_nonneg_witness :
    dz.dot dz = 1 ∧
      (((sphereNear.ray_intersect o0 dz).is_intersecting = true →
        0 ≤ (sphereNear.ray_intersect o0 dz).distance ∧
        (sphereNear.ray_intersect o0 dz).point =
          o0 + (sphereNear.ray_intersect o0 dz).distance • dz ∧
        on_sphere sphereNear (sphereNear.ray_intersect o0 dz).point ∧
        (sphereNear.ray_intersect o0 dz).normal =
          ((sphereNear.ray_intersect o0 dz).point - sphereNear.center).normalize ∧
        (sphereNear.ray_intersect o0 dz).material = sphereNear.material ∧
        (∀ t : ℝ, 0 ≤ t → on_sphere sphereNear (o0 + t • dz) →
          (sphereNear.ray_intersect o0 dz).distance ≤ t)) ∧
      ((sphereNear.ray_intersect o0 dz).is_intersecting = false →
        ∀ t : ℝ, 0 ≤ t → ¬ on_sphere sphereNear (o0 + t • dz))) :=
  ⟨by norm_num [dz, Vec3.dot],
    ray_intersect_nearest_nonneg sphereNear o0 dz (by norm_num [dz, Vec3.dot])⟩

/-- Moving from a point by `R` times a unit spherical direction lands at
distance `R` from that point. -/
theorem mag_center_shift (c : Vec3) (R P Y : ℝ) (hR : 0 ≤ R) :
    Vec3.mag ((c + R • Vec3.mk (Real.cos P * Real.cos Y) (Real.sin P)
      (Real.cos P * Real.sin Y)) - c) = R := by
  unfold Vec3.mag
  have hdot : ((c + R • Vec3.mk (Real.cos P * Real.cos Y) (Real.sin P)
      (Real.cos P * Real.sin Y)) - c).dot
      ((c + R • Vec3.mk (Real.cos P * Real.cos Y) (Real.sin P)
        (Real.cos P * Real.sin Y)) - c) = R * R := by
    have hY := Real.sin_sq_add_cos_sq Y
    have hP := Real.sin_sq_add_cos_sq P
    simp only [Vec3.dot, Vec3.add_x, Vec3.add_y, Vec3.add_z, Vec3.sub_x,
      Vec3.sub_y, Vec3.sub_z, Vec3.smul_x, Vec3.smul_y, Vec3.smul_z]
    linear_combination (R * R * (Real.cos P) ^ 2) * hY + (R * R) * hP
  rw [hdot]
  exact Real.sqrt_mul_self hR

/-- A single `orbit` call does not change the look-at center. -/
theorem orbit_center (cam : Camera) (a b : ℝ) :
    (cam.orbit a b).center = cam.center := rfl

/-- A single `orbit` call preserves the eye-to-center distance. -/
theorem orbit_mag_eq (cam : Camera) (a b : ℝ) :
    ((cam.orbit a b).eye - (cam.orbit a b).center).mag =
      (cam.eye - cam.center).mag := by
  simp only [Camera.orbit]
  exact mag_center_shift cam.center ((cam.eye - cam.center).mag) _ _
    (Real.sqrt_nonneg _)

/-- C7: every finite sequence of `orbit` calls preserves the eye-to-center
distance (exactly, in the real-number model). -/
theorem orbit_preserves_distance (cam : Camera) (deltas : List (ℝ × ℝ)) :
    ((cam.orbitSeq deltas).eye - (cam.orbitSeq deltas).center).mag =
      (cam.eye - cam.center).mag := by
  induction deltas generalizing cam with
  | nil => rfl
  | cons p ds ih =>
    have hstep : cam.orbitSeq (p :: ds) = (cam.orbit p.1 p.2).orbitSeq ds := rfl
    rw [hstep, ih (cam.orbit p.1 p.2), orbit_mag_eq]

/-- The `main.rs` camera: eye at the origin, looking at `(0,0,-5)`, world up
`(0,1,0)`. -/
def cam0 : Camera := ⟨o0, ⟨0, 0, -5⟩, ⟨0, 1, 0⟩⟩

/-- Square root of 25. -/
theorem sqrt_twentyfive : Real.sqrt 25 = 5 := by
  rw [show (25 : ℝ) = 5 ^ 2 by norm_num]
  exact Real.sqrt_sq (by norm_num)

/-- Counterexample for C8 as stated: for the `main.rs` camera the forward
vector is `(0,0,-1)`, but `basis_change` maps camera-space `(0,0,-1)` to
`(0,0,1) = −forward`, not to the forward vector. -/
theorem basis_change_forward_cx :
    cam0.basis_change ⟨0, 0, -1⟩ = ⟨0, 0, 1⟩ ∧
      (cam0.center - cam0.eye).normalize = ⟨0, 0, -1⟩ ∧
      (⟨0, 0, 1⟩ : Vec3) ≠ ⟨0, 0, -1⟩ := by
  have hfwd : (cam0.center - cam0.eye).normalize = (⟨0, 0, -1⟩ : Vec3) := by
    unfold cam0 o0 Vec3.normalize Vec3.mag
    norm_num [Vec3.dot, sqrt_twentyfive]
    ext <;> norm_num
  refine ⟨?_, hfwd, ?_⟩
  · have hcross : Vec3.cross ⟨0, 0, -1⟩ cam0.up = ⟨1, 0, 0⟩ := by
      unfold cam0 Vec3.cross
      ext <;> norm_num
    have hright : (Vec3.mk 1 0 0).normalize = ⟨1, 0, 0⟩ := by
      unfold Vec3.normalize Vec3.mag
      norm_num [Vec3.dot]
      ext <;> norm_num
    simp only [Camera.basis_change]
    rw [hfwd, hcross, hright]
    ext <;> norm_num [Vec3.cross]
  · intro h
    have := congrArg Vec3.z h
    norm_num at this

/-- Amended C8: for every camera whose center differs from its eye,
`basis_change` maps camera-space `(0,0,-1)` to the negation of the forward
vector `normalize(center − eye)`, and that image is a unit vector. -/
theorem basis_change_neg_forward (cam : Camera) (h : cam.center ≠ cam.eye) :
    cam.basis_change ⟨0, 0, -1⟩ = -((cam.center - cam.eye).normalize) ∧
      (cam.basis_change ⟨0, 0, -1⟩).mag = 1 := by
  have heq : cam.basis_change ⟨0, 0, -1⟩ =
      -((cam.center - cam.eye).normalize) := by
    unfold Camera.basis_change
    ext <;> simp
  have hcomp : (cam.center - cam.eye).x ≠ 0 ∨ (cam.center - cam.eye).y ≠ 0 ∨
      (cam.center - cam.eye).z ≠ 0 := by
    by_contra hc
    push_neg at hc
    apply h
    ext <;> [skip; skip; skip] <;>
      [have := hc.1; have := hc.2.1; have := hc.2.2] <;>
      simp at this <;> linarith
  have hdot : 0 < (cam.center - cam.eye).dot (cam.center - cam.eye) := by
    unfold Vec3.dot
    rcases hcomp with hx | hy | hz
    · nlinarith [mul_self_pos.mpr hx, mul_self_nonneg (cam.center - cam.eye).y,
        mul_self_nonneg (cam.center - cam.eye).z]
    · nlinarith [mul_self_pos.mpr hy, mul_self_nonneg (cam.center - cam.eye).x,
        mul_self_nonneg (cam.center - cam.eye).z]
    · nlinarith [mul_self_pos.mpr hz, mul_self_nonneg (cam.center - cam.eye).x,
        mul_self_nonneg (cam.center - cam.eye).y]
  have hmagpos : 0 < (cam.center - cam.eye).mag := Real.sqrt_pos.mpr hdot
  refine ⟨heq, ?_⟩
  rw [heq]
  set v : Vec3 := cam.center - cam.eye with hv
  have hexp : (-(v.normalize)).dot (-(v.normalize)) =
      (1 / v.mag) ^ 2 * v.dot v := by
    unfold Vec3.normalize Vec3.dot
    simp only [Vec3.neg_x, Vec3.neg_y, Vec3.neg_z, Vec3.smul_x, Vec3.smul_y,
      Vec3.smul_z]
    ring
  unfold Vec3.mag
  rw [hexp]
  rw [Real.sqrt_mul (sq_nonneg _),
    Real.sqrt_sq (one_div_nonneg.mpr (le_of_lt hmagpos))]
  have hmg : Real.sqrt (v.dot v) = v.mag := rfl
  rw [hmg, one_div, inv_mul_cancel₀ (ne_of_gt hmagpos)]

/-- Witness for amended C8: the `main.rs` camera has distinct center and eye,
and the amended conclusion holds for it. -/
theorem basis_change_neg_forward_witness :
    cam0.center ≠ cam0.eye ∧
      (cam0.basis_change ⟨0, 0, -1⟩ = -((cam0.center - cam0.eye).normalize) ∧
        (cam0.basis_change ⟨0, 0, -1⟩).mag = 1) :=
  ⟨fun h => by
      have := congrArg Vec3.z h
      norm_num [cam0, o0] at this,
    basis_change_neg_forward cam0 (fun h => by
      have := congrArg Vec3.z h
      norm_num [cam0, o0] at this)⟩

/-- Appending write sequences composes their application. -/
theorem apply_writes_append (b : List ℕ) (ws₁ ws₂ : List (ℕ × ℕ)) :
    apply_writes b (ws₁ ++ ws₂) = apply_writes (apply_writes b ws₁) ws₂ :=
  List.foldl_append _ _ _ _

/-- Applying writes never changes the buffer length. -/
theorem length_apply_writes (b : List ℕ) (ws : List (ℕ × ℕ)) :
    (apply_writes b ws).length = b.length := by
  induction ws generalizing b with
  | nil => rfl
  | cons p ws ih =>
    have : apply_writes b (p :: ws) = apply_writes (b.set p.1 p.2) ws := rfl
    rw [this, ih, List.length_set]

/-- An index no write targets keeps its original content. -/
theorem apply_writes_not_written (b : List ℕ) (ws : List (ℕ × ℕ)) (i : ℕ)
    (h : ∀ p ∈ ws, p.1 ≠ i) :
    (apply_writes b ws)[i]? = b[i]? := by
  induction ws generalizing b with
  | nil => rfl
  | cons p ws ih =>
    have hstep : apply_writes b (p :: ws) = apply_writes (b.set p.1 p.2) ws := rfl
    rw [hstep, ih _ fun q hq => h q (List.mem_cons_of_mem p hq)]
    exact List.getElem?_set_ne (h p (List.mem_cons_self p ws))

/-- When the write targets are pairwise distinct, every written index ends up
holding its written value. -/
theorem apply_writes_nodup_mem (b : List ℕ) (ws : List (ℕ × ℕ))
    (hnd : (ws.map Prod.fst).Nodup) (i v : ℕ) (hmem : (i, v) ∈ ws)
    (hlen : i < b.length) :
    (apply_writes b ws)[i]? = some v := by
  induction ws generalizing b with
  | nil => exact absurd hmem (List.not_mem_nil _)
  | cons p ws ih =>
    have hstep : apply_writes b (p :: ws) = apply_writes (b.set p.1 p.2) ws := rfl
    rw [hstep]
    rcases List.mem_cons.mp hmem with rfl | hmem'
    · simp only [List.map_cons] at hnd
      have hnot : ∀ q ∈ ws, q.1 ≠ i := by
        intro q hq hqi
        have hqmem : q.1 ∈ ws.map Prod.fst := List.mem_map_of_mem Prod.fst hq
        rw [hqi] at hqmem
        exact (List.nodup_cons.mp hnd).1 hqmem
      rw [apply_writes_not_written _ _ _ hnot]
      exact List.getElem?_set_self hlen
    · simp only [List.map_cons] at hnd
      exact ih _ (List.nodup_cons.mp hnd).2 hmem'
        (by rw [List.length_set]; exact hlen)

/-- Row-major pixel indices enumerate `range (h*w)`. -/
theorem row_major_range (h w : ℕ) :
    (List.range h).flatMap (fun y => (List.range w).map fun x => y * w + x) =
      List.range (h * w) := by
  induction h with
  | zero => simp
  | succ h ih =>
    rw [List.range_succ, List.flatMap_append, ih, Nat.succ_mul,
      List.range_add]
    simp only [List.flatMap_cons, List.flatMap_nil, List.append_nil]

/-- The first components of `write_list` are the row-major pixel indices. -/
theorem write_list_map_fst (w h : ℕ) (objects : List Sphere) (camera : Camera) :
    (write_list w h objects camera).map Prod.fst =
      (List.range h).flatMap fun y => (List.range w).map fun x => y * w + x := by
  unfold write_list
  rw [List.map_flatMap]
  congr 1
  funext y
  rw [List.map_map]
  rfl

/-- The write targets of `render` are pairwise distinct. -/
theorem write_list_nodup (w h : ℕ) (objects : List Sphere) (camera : Camera) :
    ((write_list w h objects camera).map Prod.fst).Nodup := by
  rw [write_list_map_fst, row_major_range]
  exact List.nodup_range _

/-- One pixel write: set the current color, then plot the point. -/
theorem body_eq (fb : Framebuffer) (v x y : ℕ) :
    (fb.set_current_color v).point x y =
      ⟨fb.width, fb.height, fb.buffer.set (y * fb.width + x) v, v⟩ := rfl

/-- The inner (column) loop preserves the framebuffer dimensions. -/
theorem inner_foldl_dims (g : ℕ → ℕ) (y : ℕ) (xs : List ℕ) (fb : Framebuffer) :
    (xs.foldl (fun fbX x => (fbX.set_current_color (g x)).point x y) fb).width =
        fb.width ∧
      (xs.foldl (fun fbX x => (fbX.set_current_color (g x)).point x y) fb).height =
        fb.height := by
  induction xs generalizing fb with
  | nil => exact ⟨rfl, rfl⟩
  | cons x xs ih =>
    simp only [List.foldl_cons, body_eq]
    exact ih _

/-- The inner (column) loop applies exactly the row's writes to the buffer. -/
theorem inner_foldl_buffer (g : ℕ → ℕ) (y : ℕ) (xs : List ℕ) (fb : Framebuffer) :
    (xs.foldl (fun fbX x => (fbX.set_current_color (g x)).point x y) fb).buffer =
      apply_writes fb.buffer (xs.map fun x => (y * fb.width + x, g x)) := by
  induction xs generalizing fb with
  | nil => rfl
  | cons x xs ih =>
    rw [List.foldl_cons, ih]
    rfl

/-- The outer (row) loop preserves the framebuffer dimensions. -/
theorem outer_foldl_dims (g2 : ℕ → ℕ → ℕ) (w : ℕ) (ys : List ℕ)
    (fb : Framebuffer) :
    ((ys.foldl (fun fbY y => (List.range w).foldl
        (fun fbX x => (fbX.set_current_color (g2 x y)).point x y) fbY) fb)).width =
        fb.width ∧
      ((ys.foldl (fun fbY y => (List.range w).foldl
        (fun fbX x => (fbX.set_current_color (g2 x y)).point x y) fbY) fb)).height =
        fb.height := by
  induction ys generalizing fb with
  | nil => exact ⟨rfl, rfl⟩
  | cons y ys ih =>
    simp only [List.foldl_cons]
    rcases ih ((List.range w).foldl
      (fun fbX x => (fbX.set_current_color (g2 x y)).point x y) fb) with ⟨h1, h2⟩
    rcases inner_foldl_dims (fun x => g2 x y) y (List.range w) fb with ⟨h3, h4⟩
    exact ⟨h1.trans h3, h2.trans h4⟩

/-- The outer (row) loop applies exactly the row-major write sequence. -/
theorem outer_foldl_buffer (g2 : ℕ → ℕ → ℕ) (w : ℕ) (ys : List ℕ)
    (fb : Framebuffer) :
    ((ys.foldl (fun fbY y => (List.range w).foldl
        (fun fbX x => (fbX.set_current_color (g2 x y)).point x y) fbY) fb)).buffer =
      apply_writes fb.buffer (ys.flatMap fun y =>
        (List.range w).map fun x => (y * fb.width + x, g2 x y)) := by
  induction ys generalizing fb with
  | nil => rfl
  | cons y ys ih =>
    simp only [List.foldl_cons, List.flatMap_cons]
    rw [ih]
    simp only [(inner_foldl_dims (fun x => g2 x y) y (List.range w) fb).1]
    rw [inner_foldl_buffer, ← apply_writes_append]

/-- `render` preserves the framebuffer width. -/
theorem render_width (fb : Framebuffer) (objects : List Sphere)
    (camera : Camera) : (render fb objects camera).width = fb.width :=
  (outer_foldl_dims
    (fun x y => (pixel_color fb.width fb.height objects camera x y).to_hex)
    fb.width (List.range fb.height) fb).1

/-- `render` preserves the framebuffer height. -/
theorem render_height (fb : Framebuffer) (objects : List Sphere)
    (camera : Camera) : (render fb objects camera).height = fb.height :=
  (outer_foldl_dims
    (fun x y => (pixel_color fb.width fb.height objects camera x y).to_hex)
    fb.width (List.range fb.height) fb).2

/-- The buffer `render` produces is the row-major write sequence applied to
the original buffer. -/
theorem render_buffer (fb : Framebuffer) (objects : List Sphere)
    (camera : Camera) :
    (render fb objects camera).buffer =
      apply_writes fb.buffer (write_list fb.width fb.height objects camera) :=
  outer_foldl_buffer
    (fun x y => (pixel_color fb.width fb.height objects camera x y).to_hex)
    fb.width (List.range fb.height) fb

/-- A pixel index is in range of the buffer. -/
theorem pixel_index_lt (w h x y : ℕ) (hx : x < w) (hy : y < h) :
    y * w + x < w * h := by
  have h1 : y * w + x < (y + 1) * w := by
    have : y * w + x < y * w + w := by omega
    calc y * w + x < y * w + w := this
      _ = (y + 1) * w := by ring
  have h2 : (y + 1) * w ≤ h * w := Nat.mul_le_mul_right w hy
  calc y * w + x < (y + 1) * w := h1
    _ ≤ h * w := h2
    _ = w * h := Nat.mul_comm h w

/-- After `render`, every in-range pixel of the buffer holds its computed
packed color. -/
theorem render_pixel_written (fb : Framebuffer) (objects : List Sphere)
    (camera : Camera) (x y : ℕ)
    (hlen : fb.buffer.length = fb.width * fb.height)
    (hx : x < fb.width) (hy : y < fb.height) :
    (render fb objects camera).buffer[(y * fb.width + x)]? =
      some ((pixel_color fb.width fb.height objects camera x y).to_hex) := by
  rw [render_buffer]
  apply apply_writes_nodup_mem _ _ (write_list_nodup _ _ _ _)
  · exact List.mem_flatMap.mpr ⟨y, List.mem_range.mpr hy,
      List.mem_map.mpr ⟨x, List.mem_range.mpr hx, rfl⟩⟩
  · rw [hlen]
    exact pixel_index_lt _ _ _ _ hx hy

/-- C9: `render` is a full-frame redraw: it keeps the framebuffer dimensions,
writes the computed packed color at every pixel of the width×height grid, and
every pixel's ray is cast from the camera's eye position. -/
theorem render_full_frame (fb : Framebuffer) (objects : List Sphere)
    (camera : Camera) (hlen : fb.buffer.length = fb.width * fb.height) :
    (render fb objects camera).width = fb.width ∧
      (render fb objects camera).height = fb.height ∧
      (∀ x y, x < fb.width → y < fb.height →
        (render fb objects camera).buffer[(y * fb.width + x)]? =
          some ((pixel_color fb.width fb.height objects camera x y).to_hex)) ∧
      (∀ x y, ∃ dir, pixel_color fb.width fb.height objects camera x y =
        cast_ray camera.eye dir objects) := by
  refine ⟨render_width fb objects camera, render_height fb objects camera,
    ?_, ?_⟩
  · intro x y hx hy
    exact render_pixel_written fb objects camera x y hlen hx hy
  · intro x y
    exact ⟨_, rfl⟩

/-- Witness for C9: a 1×1 framebuffer with a singleton buffer satisfies the
length invariant and the full-frame conclusion. -/
theorem render_full_frame_witness :
    (⟨1, 1, [0], 0⟩ : Framebuffer).buffer.length =
        (⟨1, 1, [0], 0⟩ : Framebuffer).width *
          (⟨1, 1, [0], 0⟩ : Framebuffer).height ∧
      ((render ⟨1, 1, [0], 0⟩ [] cam0).width =
          (⟨1, 1, [0], 0⟩ : Framebuffer).width ∧
        (render ⟨1, 1, [0], 0⟩ [] cam0).height =
          (⟨1, 1, [0], 0⟩ : Framebuffer).height ∧
        (∀ x y, x < (⟨1, 1, [0], 0⟩ : Framebuffer).width →
          y < (⟨1, 1, [0], 0⟩ : Framebuffer).height →
          (render ⟨1, 1, [0], 0⟩ [] cam0).buffer[(y *
              (⟨1, 1, [0], 0⟩ : Framebuffer).width + x)]? =
            some ((pixel_color (⟨1, 1, [0], 0⟩ : Framebuffer).width
              (⟨1, 1, [0], 0⟩ : Framebuffer).height [] cam0 x y).to_hex)) ∧
        (∀ x y, ∃ dir, pixel_color (⟨1, 1, [0], 0⟩ : Framebuffer).width
            (⟨1, 1, [0], 0⟩ : Framebuffer).height [] cam0 x y =
          cast_ray cam0.eye dir [])) :=
  ⟨rfl, render_full_frame ⟨1, 1, [0], 0⟩ [] cam0 rfl⟩

/-- C6: `render` is deterministic in the camera and scene: on two framebuffers
of equal dimensions (each satisfying the buffer-length invariant), it produces
identical pixel buffers whatever the initial buffer contents. -/
theorem render_deterministic (fb₁ fb₂ : Framebuffer) (objects : List Sphere)
    (camera : Camera) (hw : fb₁.width = fb₂.width)
    (hh : fb₁.height = fb₂.height)
    (hl₁ : fb₁.buffer.length = fb₁.width * fb₁.height)
    (hl₂ : fb₂.buffer.length = fb₂.width * fb₂.height) :
    (render fb₁ objects camera).buffer = (render fb₂ objects camera).buffer := by
  have hlen₁ : (render fb₁ objects camera).buffer.length =
      fb₁.width * fb₁.height := by
    rw [render_buffer, length_apply_writes, hl₁]
  have hlen₂ : (render fb₂ objects camera).buffer.length =
      fb₂.width * fb₂.height := by
    rw [render_buffer, length_apply_writes, hl₂]
  apply List.ext_getElem?
  intro i
  by_cases hi : i < fb₁.width * fb₁.height
  · have hw0 : 0 < fb₁.width := by
      rcases Nat.eq_zero_or_pos fb₁.width with h0 | h0
      · rw [h0] at hi; omega
      · exact h0
    have hx : i % fb₁.width < fb₁.width := Nat.mod_lt i hw0
    have hy : i / fb₁.width < fb₁.height := by
      rw [Nat.div_lt_iff_lt_mul hw0]
      rw [Nat.mul_comm] at hi
      exact hi
    have hidx : (i / fb₁.width) * fb₁.width + i % fb₁.width = i := by
      rw [Nat.mul_comm]
      exact Nat.div_add_mod i fb₁.width
    have h1 := render_pixel_written fb₁ objects camera (i % fb₁.width)
      (i / fb₁.width) hl₁ hx hy
    have h2 := render_pixel_written fb₂ objects camera (i % fb₁.width)
      (i / fb₁.width) hl₂ (hw ▸ hx) (hh ▸ hy)
    rw [hidx] at h1
    rw [← hw, ← hh] at h2
    rw [hidx] at h2
    rw [h1, h2]
  · rw [List.getElem?_eq_none (by rw [hlen₁]; omega),
      List.getElem?_eq_none (by rw [hlen₂, ← hw, ← hh]; omega)]

/-- Witness for C6: two 1×1 framebuffers with different initial contents
render to the same buffer. -/
theorem render_deterministic_witness :
    (render ⟨1, 1, [0], 0⟩ [sphereNear] cam0).buffer =
      (render ⟨1, 1, [7], 5⟩ [sphereNear] cam0).buffer :=
  render_deterministic ⟨1, 1, [0], 0⟩ ⟨1, 1, [7], 5⟩ [sphereNear] cam0
    rfl rfl rfl rfl

/-- C4: the per-pixel computation of `render` forms the camera-space ray from
`screen_x = (2x/w − 1)·(w/h)·tan(fov/2)` and
`screen_y = (−(2y/h) + 1)·tan(fov/2)` with `fov = 60° = π/3` and third
component `−1`, normalizes it and maps it through `basis_change`; the
pre-correction screen coordinates lie in `[-1,1] × [-1,1]`. -/
theorem render_pixel_formula (w h x y : ℕ) (objects : List Sphere)
    (camera : Camera) (hx : x < w) (hy : y < h) :
    pixel_color w h objects camera x y =
      cast_ray camera.eye (camera.basis_change (Vec3.normalize
        ⟨((2 * (x : ℝ)) / (w : ℝ) - 1) * ((w : ℝ) / (h : ℝ)) *
            Real.tan (π / 3 / 2),
          (-(2 * (y : ℝ)) / (h : ℝ) + 1) * Real.tan (π / 3 / 2), -1⟩))
        objects ∧
      -1 ≤ (2 * (x : ℝ)) / (w : ℝ) - 1 ∧ (2 * (x : ℝ)) / (w : ℝ) - 1 ≤ 1 ∧
      -1 ≤ -(2 * (y : ℝ)) / (h : ℝ) + 1 ∧ -(2 * (y : ℝ)) / (h : ℝ) + 1 ≤ 1 := by
  have harg : π / 3 * 0.5 = π / 3 / 2 := by ring
  have hw0 : (0 : ℝ) < (w : ℝ) := by exact_mod_cast Nat.zero_lt_of_lt hx
  have hh0 : (0 : ℝ) < (h : ℝ) := by exact_mod_cast Nat.zero_lt_of_lt hy
  have hxw : (x : ℝ) < (w : ℝ) := by exact_mod_cast hx
  have hyh : (y : ℝ) < (h : ℝ) := by exact_mod_cast hy
  refine ⟨?_, ?_, ?_, ?_, ?_⟩
  · simp only [pixel_color]
    rw [harg]
  · have h0 : 0 ≤ (2 * (x : ℝ)) / (w : ℝ) := by positivity
    linarith
  · have h2 : (2 * (x : ℝ)) / (w : ℝ) ≤ 2 := by
      rw [div_le_iff₀ hw0]
      linarith
    linarith
  · have h2 : (2 * (y : ℝ)) / (h : ℝ) ≤ 2 := by
      rw [div_le_iff₀ hh0]
      linarith
    have hng : -(2 * (y : ℝ)) / (h : ℝ) = -((2 * (y : ℝ)) / (h : ℝ)) := by
      ring
    rw [hng]
    linarith
  · have h0 : 0 ≤ (2 * (y : ℝ)) / (h : ℝ) := by positivity
    have hng : -(2 * (y : ℝ)) / (h : ℝ) = -((2 * (y : ℝ)) / (h : ℝ)) := by
      ring
    rw [hng]
    linarith

/-- Witness for C4: the pixel mapping at pixel (0,0) of a 1×1 frame. -/
theorem render_pixel_formula_witness :
    (0 : ℕ) < 1 ∧
      (pixel_color 1 1 [] cam0 0 0 =
        cast_ray cam0.eye (cam0.basis_change (Vec3.normalize
          ⟨((2 * ((0 : ℕ) : ℝ)) / ((1 : ℕ) : ℝ) - 1) *
              (((1 : ℕ) : ℝ) / ((1 : ℕ) : ℝ)) * Real.tan (π / 3 / 2),
            (-(2 * ((0 : ℕ) : ℝ)) / ((1 : ℕ) : ℝ) + 1) * Real.tan (π / 3 / 2),
            -1⟩)) [] ∧
        -1 ≤ (2 * ((0 : ℕ) : ℝ)) / ((1 : ℕ) : ℝ) - 1 ∧
        (2 * ((0 : ℕ) : ℝ)) / ((1 : ℕ) : ℝ) - 1 ≤ 1 ∧
        -1 ≤ -(2 * ((0 : ℕ) : ℝ)) / ((1 : ℕ) : ℝ) + 1 ∧
        -(2 * ((0 : ℕ) : ℝ)) / ((1 : ℕ) : ℝ) + 1 ≤ 1) :=
  ⟨by decide, render_pixel_formula 1 1 0 0 [] cam0 (by decide) (by decide)⟩
